import Mathlib

/-!
Verification of the event-to-angle detection pipeline of the
Detect_wheel_position_DVS_Camera repository.

The core logic lives in `utils.py` (`slice_every_events`, `_activate_pixels`,
`_build_image`, `detect_line_angle`) and in the orchestrator loop of
`detect_wheel_position.py`.  We embed these functions shallowly:

* events are integer pixel coordinates `(x, y)` (`Event := ℤ × ℤ`, matching
  the int entries of the numpy event arrays);
* images are `List (List ℕ)` row-major grids of uint8 values (`0` or `255`);
* fallible numpy indexing is modelled with `Except String`;
* the third-party components (the `dv_processing` event-stream slicer and the
  OpenCV `HoughLines` call) are not part of the repository's sources and are
  modelled from the spec, as marked in their doc comments.
-/

namespace DVS

/-- An event is an integer pixel coordinate `(x, y)`, exactly the two entries
of a row of the numpy array produced by `event_store_to_array`. -/
abbrev Event : Type := ℤ × ℤ

/-- A raster image: a row-major list of rows of uint8 pixel values.  The
rasterizer only ever writes `0` and `255`. -/
abbrev Grid : Type := List (List ℕ)

/-- Read cell `(y, x)` of a grid, with `0` for a missing cell (used only for
stating properties, the code never reads out of range). -/
def getCell (g : Grid) (y x : ℕ) : ℕ := ((List.getD g y []).getD x 0)

/-- One assignment `image[y, x] = 255` of `_activate_pixels`, with numpy's
integer indexing semantics: an index `i` into an axis of length `n` is valid
iff `-n ≤ i < n`, a negative index counting from the end (`i + n`, that is,
`i mod n`); an invalid index raises `IndexError`. -/
def setPixel (img : Grid) (x y : ℤ) : Option Grid :=
  let h : ℕ := img.length
  if -(h : ℤ) ≤ y ∧ y < (h : ℤ) then
    let ry : ℕ := (y % (h : ℤ)).toNat
    let row : List ℕ := img.getD ry []
    let w : ℕ := row.length
    if -(w : ℤ) ≤ x ∧ x < (w : ℤ) then
      some (img.set ry (row.set (x % (w : ℤ)).toNat 255))
    else
      none
  else
    none

/-- `_activate_pixels` (utils.py lines 190-202): for each event `(x, y)` in
order, assign `image[y, x] = 255`; a numpy `IndexError` aborts the loop. -/
def activatePixels (img : Grid) : List Event → Except String Grid
  | [] => .ok img
  | e :: rest =>
    match setPixel img e.1 e.2 with
    | some img' => activatePixels img' rest
    | none => .error "IndexError: index out of bounds"

/-- The all-zero `height × width` image `np.zeros((resolution[1], resolution[0]))`. -/
def zerosGrid (h w : ℕ) : Grid := List.replicate h (List.replicate w 0)

/-- `_build_image` (utils.py lines 205-208): start from the all-zero
`h × w` image and activate the pixel of every event. -/
def buildImage (w h : ℕ) (events : List Event) : Except String Grid :=
  activatePixels (zerosGrid h w) events

/-- Whether event `e` activates cell `(ry, rx)` of a `h × w` image under
numpy's indexing (negative coordinates wrap around). -/
def hits (w h : ℕ) (ry rx : ℕ) (e : Event) : Bool :=
  ((e.2 % (h : ℤ)).toNat == ry) && ((e.1 % (w : ℤ)).toNat == rx)

/-- The per-cell description of the image the rasterizer builds from in-range
events: cell `(y, x)` holds `255` iff some event wraps to it, else `0`. -/
def gridOf (w h : ℕ) (events : List Event) : Grid :=
  (List.range h).map fun y =>
    (List.range w).map fun x =>
      if events.any (hits w h y x) then 255 else 0

/-- An event whose coordinates numpy accepts for a `h × w` image:
`-w ≤ x < w` and `-h ≤ y < h` (negative values wrap around). -/
def wrapValid (w h : ℕ) (e : Event) : Prop :=
  -(w : ℤ) ≤ e.1 ∧ e.1 < (w : ℤ) ∧ -(h : ℤ) ≤ e.2 ∧ e.2 < (h : ℤ)

instance (w h : ℕ) (e : Event) : Decidable (wrapValid w h e) := by
  unfold wrapValid; infer_instance

/-- An event whose coordinates lie in `[0, w) × [0, h)`, as the spec's data
model requires of events. -/
def inBounds (w h : ℕ) (e : Event) : Prop :=
  0 ≤ e.1 ∧ e.1 < (w : ℤ) ∧ 0 ≤ e.2 ∧ e.2 < (h : ℤ)

instance (w h : ℕ) (e : Event) : Decidable (inBounds w h e) := by
  unfold inBounds; infer_instance

/-- A grid all of whose cells are `0`. -/
def allZero (g : Grid) : Prop := ∀ row ∈ g, ∀ v ∈ row, v = 0

instance (g : Grid) : Decidable (allZero g) := by
  unfold allZero
  infer_instance

/-- Split a list into consecutive chunks of `k` elements, the last chunk
holding the remainder. -/
def chunk (k : ℕ) (xs : List α) : List (List α) :=
  if h : k = 0 then [] else
    match xs with
    | [] => []
    | x :: rest => ((x :: rest).take k) :: chunk k ((x :: rest).drop k)
termination_by xs.length
decreasing_by
  have hk : 0 < k := Nat.pos_of_ne_zero h
  simp only [List.length_drop, List.length_cons]
  omega

/-- Modelled from the spec: `slice_every_events` (utils.py lines 239-255)
delegates the actual chunking to `dv.EventStreamSlicer.doEveryNumberOfEvents`
of the third-party `dv_processing` library, whose code is not in the
repository.  Per the spec's Event Slicer contract (§4.1), it produces
`ceil(N / k)` slices of up to `k` events each, in the original order, the last
slice holding the remainder `N mod k` when nonzero, and fails
(invalid-argument) when `k ≤ 0`. -/
def sliceEveryEvents (sourceEvents : List Event) (eventsPerSlice : ℤ) :
    Except String (List (List Event)) :=
  if eventsPerSlice ≤ 0 then
    .error "events_per_slice must be positive"
  else
    .ok (chunk eventsPerSlice.toNat sourceEvents)

/-- A small concrete event sequence used to instantiate the general slicing
theorems on actual data. -/
def sampleEvents : List Event := [(0, 0), (1, 0), (2, 0), (3, 0), (4, 0)]

/-- A grid has `h` rows, each of width `w`. -/
def shapeOf (g : Grid) (h w : ℕ) : Prop :=
  g.length = h ∧ ∀ row ∈ g, row.length = w

/-- Configuration of the line detector: the `rho`, `theta` and `threshold`
arguments of `detect_line_angle` (defaults `1`, `π / 180` and `10`). -/
structure HoughConfig where
  rhoStep : ℝ
  thetaStep : ℝ
  threshold : ℤ

/-- Height (number of rows) of a grid. -/
def gridHeight (g : Grid) : ℕ := g.length

/-- Width of a grid (length of its first row; the rasterizer only builds
rectangular grids). -/
def gridWidth (g : Grid) : ℕ := (g.headD []).length

/-- The diagonal length of the image, the bound `D` of the spec's ρ range. -/
noncomputable def diag (g : Grid) : ℝ :=
  Real.sqrt ((gridWidth g : ℝ) ^ 2 + (gridHeight g : ℝ) ^ 2)

/-- Number of discretized θ bins: θ ranges over `[0, π)` stepped by
`theta_step`. -/
noncomputable def numThetaBins (thetaStep : ℝ) : ℕ := ⌈Real.pi / thetaStep⌉₊

/-- Number of discretized ρ bins: ρ ranges over `[-D, D]` stepped by
`rho_step`. -/
noncomputable def numRhoBins (g : Grid) (rhoStep : ℝ) : ℕ :=
  ⌊2 * diag g / rhoStep⌋₊ + 1

/-- The θ value at the center of θ bin `t`. -/
def thetaOfBin (cfg : HoughConfig) (t : ℕ) : ℝ := (t : ℝ) * cfg.thetaStep

/-- The ρ value at the center of ρ bin `r`. -/
noncomputable def rhoOfBin (g : Grid) (cfg : HoughConfig) (r : ℕ) : ℝ :=
  -diag g + (r : ℝ) * cfg.rhoStep

/-- The ρ bin (rounding to the nearest bin) a value `ρ` falls into. -/
noncomputable def rhoBinOf (g : Grid) (cfg : HoughConfig) (rho : ℝ) : ℤ :=
  ⌊(rho + diag g) / cfg.rhoStep + 1 / 2⌋

/-- The "on" pixels of a grid, as `(x, y)` coordinates, in row-major order:
the nonzero cells, which a binary image's line detector votes from. -/
def onPixels (g : Grid) : List (ℕ × ℕ) :=
  ((List.range (gridHeight g)).map fun y =>
    (List.range (gridWidth g)).filterMap fun x =>
      if getCell g y x ≠ 0 then some (x, y) else none).flatten

/-- Modelled from the spec: the vote count of accumulator bin `(t, r)` of the
Hough transform (§4.3 step 2), which `detect_line_angle` delegates to the
third-party `cv2.HoughLines`, whose code is not in the repository: every "on"
pixel `(x, y)` casts one vote for the ρ bin holding `x·cos θ + y·sin θ` at
each θ bin. -/
noncomputable def votes (g : Grid) (cfg : HoughConfig) (t r : ℕ) : ℕ :=
  (onPixels g).countP fun p =>
    rhoBinOf g cfg ((p.1 : ℝ) * Real.cos (thetaOfBin cfg t) +
      (p.2 : ℝ) * Real.sin (thetaOfBin cfg t)) == (r : ℤ)

/-- All accumulator bins `(t, r)` in the spec's fixed scan order: ascending
θ, then ascending ρ. -/
noncomputable def binList (g : Grid) (cfg : HoughConfig) : List (ℕ × ℕ) :=
  (List.range (numThetaBins cfg.thetaStep)).flatMap fun t =>
    (List.range (numRhoBins g cfg.rhoStep)).map fun r => (t, r)

/-- Modelled from the spec: the accumulator cell with the maximum vote count
(§4.3 step 3), ties broken by the first cell in scan order. -/
noncomputable def bestBin (g : Grid) (cfg : HoughConfig) : Option (ℕ × ℕ) :=
  match binList g cfg with
  | [] => none
  | b :: bs =>
    some (bs.foldl (fun best c =>
      if votes g cfg c.1 c.2 > votes g cfg best.1 best.2 then c else best) b)

/-- The maximum vote count over all accumulator bins. -/
noncomputable def maxVotes (g : Grid) (cfg : HoughConfig) : ℕ :=
  ((binList g cfg).map fun b => votes g cfg b.1 b.2).foldl max 0

/-- Modelled from the spec: the Hough line detection `cv2.HoughLines`
(third-party, not in the repository's sources) per §4.3: vote over all
discretized (ρ, θ) bins, select the maximum; if the maximum vote count is
below `threshold` report no line, otherwise return the winning bin's
(ρ, θ). -/
noncomputable def houghDetect (g : Grid) (cfg : HoughConfig) : Option (ℝ × ℝ) :=
  match bestBin g cfg with
  | none => none
  | some b =>
    if (votes g cfg b.1 b.2 : ℤ) < cfg.threshold then none
    else some (rhoOfBin g cfg b.2, thetaOfBin cfg b.1)

/-- The angle extraction of `detect_line_angle` (utils.py lines 231-236): a
detected line `(ρ, θ)` yields the angle `θ · 180 / π` in degrees together
with the line parameters; no line yields `(None, None)`. -/
noncomputable def extractAngle (lines : Option (ℝ × ℝ)) :
    Option ℝ × Option (ℝ × ℝ) :=
  match lines with
  | some (rho, theta) => (some (theta * (180 / Real.pi)), some (rho, theta))
  | none => (none, none)

/-- `detect_line_angle` (utils.py lines 211-236): rasterize the events into
the `h × w` image, run the Hough line detection, and convert the result to an
angle in degrees; a numpy `IndexError` while rasterizing propagates. -/
noncomputable def detectLineAngle (resolution : ℕ × ℕ) (events : List Event)
    (cfg : HoughConfig) : Except String (Option ℝ × Option (ℝ × ℝ)) :=
  (buildImage resolution.1 resolution.2 events).map fun image =>
    extractAngle (houghDetect image cfg)

/-- The per-slice loop of the orchestrator (detect_wheel_position.py lines
179-193), starting at slice index `i`: each slice's detected angle is
recorded under its index; an exception aborts the whole loop. -/
noncomputable def processSlices (resolution : ℕ × ℕ) (cfg : HoughConfig) :
    ℕ → List (List Event) → Except String (List (ℕ × Option ℝ))
  | _, [] => .ok []
  | i, s :: rest =>
    match detectLineAngle resolution s cfg with
    | .error e => .error e
    | .ok r =>
      match processSlices resolution cfg (i + 1) rest with
      | .error e => .error e
      | .ok tail => .ok ((i, r.1) :: tail)

/-- The orchestrator of detect_wheel_position.py: enumerate the slices from
index `0` and record one detected angle per slice. -/
noncomputable def detectWheelPosition (resolution : ℕ × ℕ) (cfg : HoughConfig)
    (slices : List (List Event)) : Except String (List (ℕ × Option ℝ)) :=
  processSlices resolution cfg 0 slices

lemma chunk_nil (k : ℕ) : chunk k ([] : List α) = [] := by
  rw [chunk]
  split <;> rfl

lemma chunk_cons (k : ℕ) (hk : k ≠ 0) (x : α) (rest : List α) :
    chunk k (x :: rest) = ((x :: rest).take k) :: chunk k ((x :: rest).drop k) := by
  rw [chunk]
  simp [hk]

lemma chunk_eq_cons (k : ℕ) (hk : k ≠ 0) (xs : List α) (hxs : xs ≠ []) :
    chunk k xs = (xs.take k) :: chunk k (xs.drop k) := by
  cases xs with
  | nil => exact absurd rfl hxs
  | cons x rest => exact chunk_cons k hk x rest

lemma chunk_flatten (k : ℕ) (hk : k ≠ 0) (xs : List α) :
    (chunk k xs).flatten = xs := by
  have main : ∀ n (ys : List α), ys.length ≤ n → (chunk k ys).flatten = ys := by
    intro n
    induction n with
    | zero =>
      intro ys hy
      have : ys = [] := List.length_eq_zero.mp (Nat.le_zero.mp hy)
      subst this
      simp [chunk_nil]
    | succ n ih =>
      intro ys hy
      cases ys with
      | nil => simp [chunk_nil]
      | cons y rest =>
        rw [chunk_cons k hk y rest, List.flatten_cons]
        have hlen : ((y :: rest).drop k).length ≤ n := by
          have hk1 : 1 ≤ k := Nat.one_le_iff_ne_zero.mpr hk
          simp only [List.length_drop, List.length_cons]
          simp only [List.length_cons] at hy
          omega
        rw [ih _ hlen, List.take_append_drop]
  exact main xs.length xs le_rfl

lemma chunk_length (k : ℕ) (hk : k ≠ 0) (xs : List α) :
    (chunk k xs).length = (xs.length + k - 1) / k := by
  have main : ∀ n (ys : List α), ys.length ≤ n →
      (chunk k ys).length = (ys.length + k - 1) / k := by
    intro n
    induction n with
    | zero =>
      intro ys hy
      have : ys = [] := List.length_eq_zero.mp (Nat.le_zero.mp hy)
      subst this
      simp [chunk_nil, Nat.div_eq_of_lt, Nat.sub_lt (Nat.pos_of_ne_zero hk)]
    | succ n ih =>
      intro ys hy
      cases ys with
      | nil => simp [chunk_nil, Nat.div_eq_of_lt, Nat.sub_lt (Nat.pos_of_ne_zero hk)]
      | cons y rest =>
        rw [chunk_cons k hk y rest, List.length_cons]
        have hk1 : 1 ≤ k := Nat.one_le_iff_ne_zero.mpr hk
        have hlen : ((y :: rest).drop k).length ≤ n := by
          simp only [List.length_drop, List.length_cons]
          simp only [List.length_cons] at hy
          omega
        rw [ih _ hlen]
        simp only [List.length_drop, List.length_cons]
        rcases Nat.le_total (rest.length + 1) k with hle | hle
        · have h1 : rest.length + 1 - k = 0 := Nat.sub_eq_zero_of_le hle
          rw [h1]
          have h2 : (0 + k - 1) / k = 0 :=
            Nat.div_eq_of_lt (by omega)
          rw [h2]
          have h3 : (rest.length + 1 + k - 1) / k = 1 :=
            Nat.div_eq_of_lt_le (by omega) (by omega)
          omega
        · have h3 : rest.length + 1 - k + k - 1 = rest.length + 1 - 1 := by omega
          rw [h3]
          have h4 : rest.length + 1 + k - 1 = (rest.length + 1 - 1) + 1 * k := by omega
          rw [h4, Nat.add_mul_div_right _ _ (Nat.pos_of_ne_zero hk)]
  exact main xs.length xs le_rfl

lemma chunk_mem_length (k : ℕ) (hk : k ≠ 0) (xs : List α) (s : List α)
    (hs : s ∈ chunk k xs) : s.length ≤ k ∧ s ≠ [] := by
  have main : ∀ n (ys : List α), ys.length ≤ n → ∀ s ∈ chunk k ys,
      s.length ≤ k ∧ s ≠ [] := by
    intro n
    induction n with
    | zero =>
      intro ys hy s hsmem
      have : ys = [] := List.length_eq_zero.mp (Nat.le_zero.mp hy)
      subst this
      simp [chunk_nil] at hsmem
    | succ n ih =>
      intro ys hy s hsmem
      cases ys with
      | nil => simp [chunk_nil] at hsmem
      | cons y rest =>
        rw [chunk_cons k hk y rest, List.mem_cons] at hsmem
        rcases hsmem with h | h
        · subst h
          constructor
          · exact List.length_take_le k (y :: rest)
          · cases k with
            | zero => exact absurd rfl hk
            | succ m => simp [List.take_succ_cons]
        · have hk1 : 1 ≤ k := Nat.one_le_iff_ne_zero.mpr hk
          have hlen : ((y :: rest).drop k).length ≤ n := by
            simp only [List.length_drop, List.length_cons]
            simp only [List.length_cons] at hy
            omega
          exact ih _ hlen s h
  exact main xs.length xs le_rfl s hs

lemma chunk_getLast_length (k : ℕ) (hk : k ≠ 0) (xs : List α) (hxs : xs ≠ []) :
    ∃ l, (chunk k xs).getLast? = some l ∧
      l.length = if xs.length % k = 0 then k else xs.length % k := by
  have main : ∀ n (ys : List α), ys.length ≤ n → ys ≠ [] →
      ∃ l, (chunk k ys).getLast? = some l ∧
        l.length = if ys.length % k = 0 then k else ys.length % k := by
    intro n
    induction n with
    | zero =>
      intro ys hy hne
      exact absurd (List.length_eq_zero.mp (Nat.le_zero.mp hy)) hne
    | succ n ih =>
      intro ys hy hne
      have hk1 : 1 ≤ k := Nat.one_le_iff_ne_zero.mpr hk
      cases ys with
      | nil => exact absurd rfl hne
      | cons y rest =>
        rw [chunk_cons k hk y rest]
        by_cases hdrop : (y :: rest).drop k = []
        · rw [hdrop, chunk_nil]
          refine ⟨(y :: rest).take k, rfl, ?_⟩
          have hle : rest.length + 1 ≤ k := by
            have := List.length_drop k (y :: rest)
            rw [hdrop] at this
            simp only [List.length_nil, List.length_cons] at this
            omega
          have htake : ((y :: rest).take k).length = rest.length + 1 := by
            simp only [List.length_take, List.length_cons]
            omega
          simp only [List.length_cons]
          rw [htake]
          rcases Nat.lt_or_ge (rest.length + 1) k with hlt | hge
          · rw [Nat.mod_eq_of_lt hlt, if_neg (by omega)]
          · have heq : rest.length + 1 = k := le_antisymm hle hge
            rw [heq]
            simp [Nat.mod_self]
        · have hlen : ((y :: rest).drop k).length ≤ n := by
            simp only [List.length_drop, List.length_cons]
            simp only [List.length_cons] at hy
            omega
          obtain ⟨l, hl, hlenl⟩ := ih _ hlen hdrop
          refine ⟨l, ?_, ?_⟩
          · cases hchunk : chunk k ((y :: rest).drop k) with
            | nil =>
              rw [hchunk] at hl
              simp at hl
            | cons c cs =>
              rw [hchunk] at hl
              rw [List.getLast?_cons_cons]
              exact hl
          · rw [hlenl]
            have hklen : k ≤ rest.length + 1 := by
              by_contra habs
              push_neg at habs
              apply hdrop
              apply List.drop_eq_nil_of_le
              simp only [List.length_cons]
              omega
            have hmod : ((y :: rest).drop k).length % k = (y :: rest).length % k := by
              simp only [List.length_drop, List.length_cons]
              conv_rhs => rw [← Nat.sub_add_cancel hklen]
              rw [Nat.add_mod_right]
            rw [hmod]
  exact main xs.length xs le_rfl hxs

lemma chunk_length_eq_ceil (k : ℕ) (hk : k ≠ 0) (xs : List α) :
    (chunk k xs).length = ⌈(xs.length : ℚ) / (k : ℚ)⌉₊ := by
  rw [chunk_length k hk]
  have hkpos : 0 < k := Nat.pos_of_ne_zero hk
  have hkq : (0 : ℚ) < (k : ℚ) := by exact_mod_cast hkpos
  set N := xs.length with hN
  set c := ⌈(N : ℚ) / (k : ℚ)⌉₊ with hc
  apply le_antisymm
  · have h1 : (N : ℚ) / (k : ℚ) ≤ (c : ℚ) := Nat.le_ceil _
    rw [div_le_iff hkq] at h1
    have h2 : N ≤ c * k := by exact_mod_cast h1
    have hlt : (N + k - 1) / k < c + 1 := by
      rw [Nat.div_lt_iff_lt_mul hkpos]
      have he : (c + 1) * k = c * k + k := by ring
      omega
    omega
  · rw [hc, Nat.ceil_le, div_le_iff hkq]
    have h1 : k * ((N + k - 1) / k) + (N + k - 1) % k = N + k - 1 :=
      Nat.div_add_mod _ _
    have h2 : (N + k - 1) % k < k := Nat.mod_lt _ hkpos
    have h3 : N ≤ k * ((N + k - 1) / k) := by omega
    calc (N : ℚ) ≤ ((k * ((N + k - 1) / k) : ℕ) : ℚ) := by exact_mod_cast h3
      _ = (((N + k - 1) / k : ℕ) : ℚ) * (k : ℚ) := by push_cast; ring

lemma getD_eq_getElem {β : Type _} {l : List β} {i : ℕ} (d : β) (hi : i < l.length) :
    l.getD i d = l.get ⟨i, hi⟩ := by
  rw [List.getD_eq_getElem?_getD, List.getElem?_eq_getElem hi]
  rfl

lemma getD_eq_default {β : Type _} {l : List β} {i : ℕ} (d : β) (hi : ¬ i < l.length) :
    l.getD i d = d := by
  rw [List.getD_eq_getElem?_getD, List.getElem?_eq_none (le_of_not_lt hi)]
  rfl

lemma getD_set_self {β : Type _} {l : List β} {i : ℕ} (a d : β) (hi : i < l.length) :
    (l.set i a).getD i d = a := by
  rw [List.getD_eq_getElem?_getD, List.getElem?_set_self hi]
  rfl

lemma getD_set_ne {β : Type _} {l : List β} {i j : ℕ} (a d : β) (hij : i ≠ j) :
    (l.set i a).getD j d = l.getD j d := by
  rw [List.getD_eq_getElem?_getD, List.getElem?_set_ne hij, ← List.getD_eq_getElem?_getD]

lemma getD_mem {β : Type _} {l : List β} {i : ℕ} {d : β} (hi : i < l.length) :
    l.getD i d ∈ l := by
  rw [List.getD_eq_getElem?_getD, List.getElem?_eq_getElem hi]
  exact List.getElem_mem hi

lemma wrap_row_lt {h : ℕ} {y : ℤ} (h1 : -(h : ℤ) ≤ y) (h2 : y < (h : ℤ)) :
    (y % (h : ℤ)).toNat < h := by
  have h0 : 0 < h := by omega
  have hn : (0 : ℤ) ≤ y % (h : ℤ) :=
    Int.emod_nonneg y (by exact_mod_cast h0.ne')
  have hl : y % (h : ℤ) < (h : ℤ) :=
    Int.emod_lt_of_pos y (by exact_mod_cast h0)
  omega

lemma setPixel_eq {w h : ℕ} {g : Grid} (hg : shapeOf g h w) {x y : ℤ}
    (hv : wrapValid w h (x, y)) :
    setPixel g x y = some (g.set (y % (h : ℤ)).toNat
      ((g.getD (y % (h : ℤ)).toNat []).set (x % (w : ℤ)).toNat 255)) := by
  obtain ⟨hx1, hx2, hy1, hy2⟩ := hv
  have hrow : (g.getD (y % (h : ℤ)).toNat []).length = w := by
    apply hg.2
    apply getD_mem
    rw [hg.1]
    exact wrap_row_lt hy1 hy2
  unfold setPixel
  simp only [hg.1, hrow]
  rw [if_pos ⟨hy1, hy2⟩, if_pos ⟨hx1, hx2⟩]

lemma setPixel_none {w h : ℕ} {g : Grid} (hg : shapeOf g h w) {x y : ℤ}
    (hv : ¬ wrapValid w h (x, y)) : setPixel g x y = none := by
  unfold setPixel
  by_cases hy : -(g.length : ℤ) ≤ y ∧ y < (g.length : ℤ)
  · rw [if_pos hy]
    have hyh : -(h : ℤ) ≤ y ∧ y < (h : ℤ) := by rw [← hg.1]; exact hy
    have hrow : (g.getD (y % (g.length : ℤ)).toNat []).length = w := by
      apply hg.2
      apply getD_mem
      have := wrap_row_lt hyh.1 hyh.2
      rw [hg.1]
      rw [hg.1] at *
      exact this
    rw [if_neg]
    rw [hrow]
    intro hx
    exact hv ⟨hx.1, hx.2, hyh.1, hyh.2⟩
  · rw [if_neg hy]

lemma shapeOf_set_row {g : Grid} {h w : ℕ} (hg : shapeOf g h w) {ry : ℕ}
    {row : List ℕ} (hrow : row.length = w) : shapeOf (g.set ry row) h w := by
  refine ⟨by rw [List.length_set, hg.1], ?_⟩
  intro r hr
  rcases List.mem_or_eq_of_mem_set hr with h1 | h1
  · exact hg.2 r h1
  · rw [h1]
    exact hrow

lemma getCell_set {g : Grid} {h w : ℕ} (hg : shapeOf g h w) {ry0 rx0 : ℕ}
    (hry : ry0 < h) (hrx : rx0 < w) (ry rx : ℕ) :
    getCell (g.set ry0 ((g.getD ry0 []).set rx0 255)) ry rx =
      if ry0 = ry ∧ rx0 = rx then 255 else getCell g ry rx := by
  have hrowlen : (g.getD ry0 []).length = w :=
    hg.2 _ (getD_mem (by rw [hg.1]; exact hry))
  unfold getCell
  by_cases hyy : ry0 = ry
  · subst hyy
    rw [getD_set_self _ _ (by rw [hg.1]; exact hry)]
    by_cases hxx : rx0 = rx
    · subst hxx
      rw [if_pos ⟨rfl, rfl⟩, getD_set_self _ _ (by rw [hrowlen]; exact hrx)]
    · rw [if_neg (by tauto), getD_set_ne _ _ hxx]
  · rw [if_neg (by tauto), getD_set_ne _ _ hyy]

lemma hits_eq_true {w h ry rx : ℕ} {e : Event} :
    hits w h ry rx e = true ↔
      (e.2 % (h : ℤ)).toNat = ry ∧ (e.1 % (w : ℤ)).toNat = rx := by
  unfold hits
  simp

lemma activatePixels_ok {w h : ℕ} (events : List Event) :
    ∀ g : Grid, shapeOf g h w → (∀ e ∈ events, wrapValid w h e) →
    ∃ g', activatePixels g events = .ok g' ∧ shapeOf g' h w ∧
      ∀ ry rx, getCell g' ry rx =
        if events.any (hits w h ry rx) then 255 else getCell g ry rx := by
  induction events with
  | nil =>
    intro g hg _
    refine ⟨g, rfl, hg, ?_⟩
    intro ry rx
    simp
  | cons e rest ih =>
    intro g hg hv
    have hve : wrapValid w h e := hv e (List.mem_cons_self e rest)
    have hvrest : ∀ e' ∈ rest, wrapValid w h e' := fun e' he' =>
      hv e' (List.mem_cons_of_mem e he')
    have hry : (e.2 % (h : ℤ)).toNat < h := wrap_row_lt hve.2.2.1 hve.2.2.2
    have hrx : (e.1 % (w : ℤ)).toNat < w := wrap_row_lt hve.1 hve.2.1
    have hrowlen : (g.getD (e.2 % (h : ℤ)).toNat []).length = w :=
      hg.2 _ (getD_mem (by rw [hg.1]; exact hry))
    have hshape1 : shapeOf (g.set (e.2 % (h : ℤ)).toNat
        ((g.getD (e.2 % (h : ℤ)).toNat []).set (e.1 % (w : ℤ)).toNat 255)) h w :=
      shapeOf_set_row hg (by rw [List.length_set, hrowlen])
    obtain ⟨g', hok, hshape', hcells⟩ := ih _ hshape1 hvrest
    refine ⟨g', ?_, hshape', ?_⟩
    · show activatePixels g (e :: rest) = .ok g'
      rw [activatePixels, setPixel_eq hg hve]
      exact hok
    · intro ry rx
      rw [hcells ry rx, getCell_set hg hry hrx ry rx, List.any_cons]
      by_cases h1 : rest.any (hits w h ry rx) = true
      · simp [h1]
      · have h1' : rest.any (hits w h ry rx) = false := Bool.eq_false_iff.mpr h1
        rw [if_neg h1, h1', Bool.or_false]
        by_cases h2 : (e.2 % (h : ℤ)).toNat = ry ∧ (e.1 % (w : ℤ)).toNat = rx
        · rw [if_pos h2, if_pos (hits_eq_true.mpr h2)]
        · rw [if_neg h2, if_neg (fun habs => h2 (hits_eq_true.mp habs))]

lemma activatePixels_error {w h : ℕ} (events : List Event) :
    ∀ g : Grid, shapeOf g h w → (∃ e ∈ events, ¬ wrapValid w h e) →
    activatePixels g events = .error "IndexError: index out of bounds" := by
  induction events with
  | nil =>
    rintro g hg ⟨e, he, _⟩
    cases he
  | cons e rest ih =>
    rintro g hg ⟨e', he', hbad⟩
    by_cases hve : wrapValid w h e
    · have hry : (e.2 % (h : ℤ)).toNat < h := wrap_row_lt hve.2.2.1 hve.2.2.2
      have hrowlen : (g.getD (e.2 % (h : ℤ)).toNat []).length = w :=
        hg.2 _ (getD_mem (by rw [hg.1]; exact hry))
      have hshape1 : shapeOf (g.set (e.2 % (h : ℤ)).toNat
          ((g.getD (e.2 % (h : ℤ)).toNat []).set (e.1 % (w : ℤ)).toNat 255)) h w :=
        shapeOf_set_row hg (by rw [List.length_set, hrowlen])
      rw [activatePixels, setPixel_eq hg hve]
      apply ih _ hshape1
      rcases List.mem_cons.mp he' with rfl | hmem
      · exact absurd hve hbad
      · exact ⟨e', hmem, hbad⟩
    · rw [activatePixels, setPixel_none hg hve]

lemma shapeOf_zeros (h w : ℕ) : shapeOf (zerosGrid h w) h w := by
  refine ⟨by simp [zerosGrid], ?_⟩
  intro row hrow
  rw [List.eq_of_mem_replicate hrow]
  simp

lemma getCell_zeros (h w ry rx : ℕ) : getCell (zerosGrid h w) ry rx = 0 := by
  unfold getCell zerosGrid
  by_cases hry : ry < h
  · have houter : (List.replicate h (List.replicate w 0)).getD ry [] =
        List.replicate w 0 := by
      rw [getD_eq_getElem _ (by simpa using hry)]
      exact List.getElem_replicate _ _
    rw [houter]
    by_cases hrx : rx < w
    · rw [getD_eq_getElem _ (by simpa using hrx)]
      exact List.getElem_replicate _ _
    · exact getD_eq_default _ (by simpa using hrx)
  · have houter : (List.replicate h (List.replicate w 0)).getD ry [] = [] :=
      getD_eq_default _ (by simpa using hry)
    rw [houter]
    rfl

lemma shapeOf_gridOf (w h : ℕ) (events : List Event) :
    shapeOf (gridOf w h events) h w := by
  refine ⟨by simp [gridOf], ?_⟩
  intro row hrow
  rw [gridOf, List.mem_map] at hrow
  obtain ⟨y, _, rfl⟩ := hrow
  simp

lemma getCell_gridOf (w h : ℕ) (events : List Event) {ry rx : ℕ}
    (hry : ry < h) (hrx : rx < w) :
    getCell (gridOf w h events) ry rx =
      if events.any (hits w h ry rx) then 255 else 0 := by
  unfold getCell gridOf
  have houter : ((List.range h).map fun y =>
      (List.range w).map fun x =>
        if events.any (hits w h y x) then 255 else 0).getD ry [] =
      (List.range w).map fun x =>
        if events.any (hits w h ry x) then 255 else 0 := by
    rw [getD_eq_getElem _ (by simpa using hry), List.get_eq_getElem,
      List.getElem_map, List.getElem_range]
  rw [houter, getD_eq_getElem _ (by simpa using hrx), List.get_eq_getElem,
    List.getElem_map, List.getElem_range]

lemma getCell_eq_getElem {g : Grid} {ry rx : ℕ} (hry : ry < g.length)
    (hrx : rx < (g.get ⟨ry, hry⟩).length) :
    getCell g ry rx = (g.get ⟨ry, hry⟩).get ⟨rx, hrx⟩ := by
  unfold getCell
  have houter : g.getD ry [] = g.get ⟨ry, hry⟩ := getD_eq_getElem _ hry
  rw [houter]
  exact getD_eq_getElem _ hrx

lemma grid_ext {g1 g2 : Grid} {h w : ℕ} (h1 : shapeOf g1 h w)
    (h2 : shapeOf g2 h w)
    (hc : ∀ ry < h, ∀ rx < w, getCell g1 ry rx = getCell g2 ry rx) :
    g1 = g2 := by
  apply List.ext_getElem (by rw [h1.1, h2.1])
  intro n hn1 hn2
  apply List.ext_getElem
  · rw [h1.2 _ (List.getElem_mem hn1), h2.2 _ (List.getElem_mem hn2)]
  · intro m hm1 hm2
    show (g1.get ⟨n, hn1⟩).get ⟨m, hm1⟩ = (g2.get ⟨n, hn2⟩).get ⟨m, hm2⟩
    rw [← getCell_eq_getElem hn1 hm1, ← getCell_eq_getElem hn2 hm2]
    apply hc
    · rw [← h1.1]
      exact hn1
    · rw [← h1.2 _ (List.getElem_mem hn1)]
      exact hm1

lemma buildImage_ok {w h : ℕ} {events : List Event}
    (hv : ∀ e ∈ events, wrapValid w h e) :
    buildImage w h events = .ok (gridOf w h events) := by
  obtain ⟨g', hok, hshape, hcells⟩ :=
    activatePixels_ok events (zerosGrid h w) (shapeOf_zeros h w) hv
  unfold buildImage
  rw [hok]
  congr 1
  apply grid_ext hshape (shapeOf_gridOf w h events)
  intro ry hry rx hrx
  rw [hcells ry rx, getCell_gridOf w h events hry hrx, getCell_zeros]

lemma buildImage_error {w h : ℕ} {events : List Event}
    (hbad : ∃ e ∈ events, ¬ wrapValid w h e) :
    buildImage w h events = .error "IndexError: index out of bounds" :=
  activatePixels_error events (zerosGrid h w) (shapeOf_zeros h w) hbad

lemma getCell_allZero {g : Grid} (hz : allZero g) (y x : ℕ) :
    getCell g y x = 0 := by
  unfold getCell
  by_cases hy : y < g.length
  · by_cases hx : x < (g.getD y []).length
    · have houter : g.getD y [] ∈ g := getD_mem hy
      exact hz _ houter _ (getD_mem hx)
    · exact getD_eq_default _ hx
  · rw [getD_eq_default _ hy]
    rfl

lemma onPixels_allZero {g : Grid} (hz : allZero g) : onPixels g = [] := by
  unfold onPixels
  rw [List.flatten_eq_nil_iff]
  intro row hrow
  rw [List.mem_map] at hrow
  obtain ⟨y, _, rfl⟩ := hrow
  rw [List.filterMap_eq_nil_iff]
  intro x _
  rw [if_neg]
  intro habs
  exact habs (getCell_allZero hz y x)

lemma votes_allZero {g : Grid} (hz : allZero g) (cfg : HoughConfig) (t r : ℕ) :
    votes g cfg t r = 0 := by
  unfold votes
  rw [onPixels_allZero hz]
  exact List.countP_nil _

lemma allZero_gridOf_nil (w h : ℕ) : allZero (gridOf w h []) := by
  intro row hrow
  rw [gridOf, List.mem_map] at hrow
  obtain ⟨y, _, rfl⟩ := hrow
  intro v hv
  rw [List.mem_map] at hv
  obtain ⟨x, _, rfl⟩ := hv
  simp

lemma binList_ne_nil {g : Grid} {cfg : HoughConfig}
    (hth : 1 ≤ numThetaBins cfg.thetaStep) : binList g cfg ≠ [] := by
  intro habs
  have hmem : ((0, 0) : ℕ × ℕ) ∈ binList g cfg := by
    rw [binList, List.mem_flatMap]
    refine ⟨0, by simpa using hth, ?_⟩
    rw [List.mem_map]
    exact ⟨0, by simp [numRhoBins], rfl⟩
  rw [habs] at hmem
  cases hmem

lemma votes_foldl_best (g : Grid) (cfg : HoughConfig) :
    ∀ (bs : List (ℕ × ℕ)) (b : ℕ × ℕ),
      votes g cfg (bs.foldl (fun best c =>
          if votes g cfg c.1 c.2 > votes g cfg best.1 best.2 then c else best) b).1
        (bs.foldl (fun best c =>
          if votes g cfg c.1 c.2 > votes g cfg best.1 best.2 then c else best) b).2 =
      bs.foldl (fun a c => max a (votes g cfg c.1 c.2)) (votes g cfg b.1 b.2) := by
  intro bs
  induction bs with
  | nil => intro b; rfl
  | cons c cs ih =>
    intro b
    rw [List.foldl_cons, List.foldl_cons, ih]
    congr 1
    by_cases hcb : votes g cfg c.1 c.2 > votes g cfg b.1 b.2
    · rw [if_pos hcb]
      omega
    · rw [if_neg hcb]
      omega

lemma bestBin_votes {g : Grid} {cfg : HoughConfig} (hne : binList g cfg ≠ []) :
    ∃ b, bestBin g cfg = some b ∧ votes g cfg b.1 b.2 = maxVotes g cfg := by
  cases hb : binList g cfg with
  | nil => exact absurd hb hne
  | cons b bs =>
    refine ⟨_, by rw [bestBin, hb], ?_⟩
    rw [votes_foldl_best g cfg bs b]
    unfold maxVotes
    rw [hb, List.map_cons, List.foldl_cons, List.foldl_map]
    congr 1
    omega

lemma maxVotes_allZero {g : Grid} (hz : allZero g) (cfg : HoughConfig) :
    maxVotes g cfg = 0 := by
  unfold maxVotes
  have hzero : ∀ (l : List (ℕ × ℕ)) (a : ℕ),
      (l.map fun b => votes g cfg b.1 b.2).foldl max a = a := by
    intro l
    induction l with
    | nil => intro a; rfl
    | cons c cs ih =>
      intro a
      rw [List.map_cons, List.foldl_cons, votes_allZero hz]
      rw [ih]
      omega
  rw [hzero]

lemma houghDetect_none_iff {g : Grid} {cfg : HoughConfig}
    (hth : 1 ≤ numThetaBins cfg.thetaStep) :
    (houghDetect g cfg = none ↔ (maxVotes g cfg : ℤ) < cfg.threshold) := by
  obtain ⟨b, hb, hv⟩ := bestBin_votes (binList_ne_nil hth)
  unfold houghDetect
  rw [hb]
  show (if (votes g cfg b.1 b.2 : ℤ) < cfg.threshold then none
    else some (rhoOfBin g cfg b.2, thetaOfBin cfg b.1)) = none ↔
      (maxVotes g cfg : ℤ) < cfg.threshold
  by_cases hlt : (votes g cfg b.1 b.2 : ℤ) < cfg.threshold
  · rw [if_pos hlt]
    simp only [true_iff]
    rw [← hv]
    exact hlt
  · rw [if_neg hlt]
    simp only [reduceCtorEq, false_iff, not_lt]
    rw [← hv]
    exact not_lt.mp hlt

lemma hits_inBounds_iff {w h ry rx : ℕ} {e : Event} (he : inBounds w h e) :
    hits w h ry rx e = true ↔ e = ((rx : ℤ), (ry : ℤ)) := by
  obtain ⟨hx0, hxw, hy0, hyh⟩ := he
  unfold hits
  rw [Int.emod_eq_of_lt hy0 hyh, Int.emod_eq_of_lt hx0 hxw]
  simp only [Bool.and_eq_true, beq_iff_eq]
  constructor
  · rintro ⟨h1, h2⟩
    have he1 : e.1 = (rx : ℤ) := by omega
    have he2 : e.2 = (ry : ℤ) := by omega
    calc e = (e.1, e.2) := rfl
      _ = ((rx : ℤ), (ry : ℤ)) := by rw [he1, he2]
  · rintro rfl
    constructor <;> simp

lemma inBounds_wrapValid {w h : ℕ} {e : Event} (he : inBounds w h e) :
    wrapValid w h e := by
  obtain ⟨hx0, hxw, hy0, hyh⟩ := he
  exact ⟨by omega, hxw, by omega, hyh⟩

lemma processSlices_map_fst (res : ℕ × ℕ) (cfg : HoughConfig) :
    ∀ (slices : List (List Event)) (i : ℕ) (series : List (ℕ × Option ℝ)),
      processSlices res cfg i slices = .ok series →
      series.map Prod.fst = List.range' i slices.length := by
  intro slices
  induction slices with
  | nil =>
    intro i series hok
    simp only [processSlices] at hok
    injection hok with heq
    rw [← heq]
    rfl
  | cons s rest ih =>
    intro i series hok
    simp only [processSlices] at hok
    cases hd : detectLineAngle res s cfg with
    | error e =>
      rw [hd] at hok
      simp at hok
    | ok r =>
      rw [hd] at hok
      cases ht : processSlices res cfg (i + 1) rest with
      | error e =>
        rw [ht] at hok
        simp at hok
      | ok tail =>
        rw [ht] at hok
        injection hok with heq
        rw [← heq, List.map_cons, List.length_cons, List.range'_succ]
        exact congrArg (fun l => i :: l) (ih (i + 1) tail ht)

lemma numThetaBins_pi : numThetaBins Real.pi = 1 := by
  unfold numThetaBins
  rw [div_self Real.pi_ne_zero]
  exact Nat.ceil_one

/-- C1: for every positive `k` and every event sequence of length `N`, the
Event Slicer succeeds and produces exactly `⌈N / k⌉` slices of at most `k`
events each, in order; their concatenation is the original sequence, and when
`N mod k` is nonzero the last slice holds exactly the remainder. -/
theorem slicer_partition (events : List Event) (k : ℤ) (hk : 0 < k) :
    ∃ slices, sliceEveryEvents events k = .ok slices ∧
      slices.length = ⌈(events.length : ℚ) / ((k.toNat : ℚ))⌉₊ ∧
      (∀ s ∈ slices, s.length ≤ k.toNat) ∧
      slices.flatten = events ∧
      (events.length % k.toNat ≠ 0 →
        ∃ last, slices.getLast? = some last ∧
          last.length = events.length % k.toNat) := by
  have hk0 : k.toNat ≠ 0 := by omega
  refine ⟨chunk k.toNat events, ?_, chunk_length_eq_ceil k.toNat hk0 events,
    fun s hs => (chunk_mem_length k.toNat hk0 events s hs).1,
    chunk_flatten k.toNat hk0 events, ?_⟩
  · unfold sliceEveryEvents
    rw [if_neg (not_le.mpr hk)]
  · intro hmod
    have hne : events ≠ [] := by
      intro habs
      rw [habs] at hmod
      simp at hmod
    obtain ⟨l, hl, hlen⟩ := chunk_getLast_length k.toNat hk0 events hne
    exact ⟨l, hl, by rw [hlen, if_neg hmod]⟩

/-- Witness for C1 on five concrete events with `k = 2`. -/
theorem slicer_partition_witness :
    (0 : ℤ) < 2 ∧
      ∃ slices, sliceEveryEvents sampleEvents 2 = .ok slices ∧
        slices.length = ⌈(sampleEvents.length : ℚ) / (((2 : ℤ).toNat : ℚ))⌉₊ ∧
        (∀ s ∈ slices, s.length ≤ (2 : ℤ).toNat) ∧
        slices.flatten = sampleEvents ∧
        (sampleEvents.length % (2 : ℤ).toNat ≠ 0 →
          ∃ last, slices.getLast? = some last ∧
            last.length = sampleEvents.length % (2 : ℤ).toNat) :=
  ⟨by decide, slicer_partition sampleEvents 2 (by decide)⟩

/-- C2: for in-bounds events, the Rasterizer succeeds and yields an `h × w`
grid whose cell `(y, x)` is on (`255`, the code's binary 1) iff some event of
the slice has coordinate `(x, y)`, and `0` otherwise. -/
theorem rasterizer_occupancy (w h : ℕ) (events : List Event)
    (hin : ∀ e ∈ events, inBounds w h e) :
    ∃ grid, buildImage w h events = .ok grid ∧
      grid.length = h ∧ (∀ row ∈ grid, row.length = w) ∧
      ∀ ry rx, ry < h → rx < w →
        getCell grid ry rx =
          if ((rx : ℤ), (ry : ℤ)) ∈ events then 255 else 0 := by
  have hv : ∀ e ∈ events, wrapValid w h e := fun e he => inBounds_wrapValid (hin e he)
  refine ⟨gridOf w h events, buildImage_ok hv,
    (shapeOf_gridOf w h events).1, (shapeOf_gridOf w h events).2, ?_⟩
  intro ry rx hry hrx
  rw [getCell_gridOf w h events hry hrx]
  by_cases hmem : ((rx : ℤ), (ry : ℤ)) ∈ events
  · rw [if_pos (List.any_eq_true.mpr
      ⟨_, hmem, (hits_inBounds_iff (hin _ hmem)).mpr rfl⟩), if_pos hmem]
  · rw [if_neg ?_, if_neg hmem]
    intro habs
    obtain ⟨e, he, hhit⟩ := List.any_eq_true.mp habs
    apply hmem
    rw [← (hits_inBounds_iff (hin e he)).mp hhit]
    exact he

/-- Witness for C2 on a single event in a `2 × 2` resolution. -/
theorem rasterizer_occupancy_witness :
    (∀ e ∈ [((0 : ℤ), (1 : ℤ))], inBounds 2 2 e) ∧
      ∃ grid, buildImage 2 2 [((0 : ℤ), (1 : ℤ))] = .ok grid ∧
        grid.length = 2 ∧ (∀ row ∈ grid, row.length = 2) ∧
        ∀ ry rx, ry < 2 → rx < 2 →
          getCell grid ry rx =
            if ((rx : ℤ), (ry : ℤ)) ∈ [((0 : ℤ), (1 : ℤ))] then 255 else 0 :=
  ⟨by decide, rasterizer_occupancy 2 2 _ (by decide)⟩

/-- C3 is refuted as stated: the event `(-1, 0)` lies outside
`[0, 2) × [0, 2)`, yet rasterizing it does not fail — numpy's negative
indexing wraps around and activates cell `(0, 1)`. -/
theorem rasterizer_oob_counterexample :
    ¬ inBounds 2 2 ((-1 : ℤ), (0 : ℤ)) ∧
      buildImage 2 2 [((-1 : ℤ), (0 : ℤ))] = .ok [[0, 255], [0, 0]] :=
  ⟨by decide, rfl⟩

/-- C3 (amended): rasterization fails with the out-of-bounds error exactly
when some event coordinate falls outside numpy's accepted index range
`[-w, w) × [-h, h)`; merely negative coordinates in that range wrap silently
instead of failing. -/
theorem rasterizer_oob_failure (w h : ℕ) (events : List Event)
    (hbad : ∃ e ∈ events, ¬ wrapValid w h e) :
    buildImage w h events = .error "IndexError: index out of bounds" :=
  buildImage_error hbad

/-- Witness for the amended C3: `x = 5` is out of range for width 2. -/
theorem rasterizer_oob_failure_witness :
    (∃ e ∈ [((5 : ℤ), (0 : ℤ))], ¬ wrapValid 2 2 e) ∧
      buildImage 2 2 [((5 : ℤ), (0 : ℤ))] =
        .error "IndexError: index out of bounds" :=
  ⟨by decide, rasterizer_oob_failure 2 2 _ (by decide)⟩

/-- C4 is refuted as stated for non-positive thresholds: on the all-zero
`1 × 1` grid with `threshold = 0`, the spec's voting algorithm (maximum vote
count `0` is not `< 0`) returns the first accumulator bin, not "no line". -/
theorem detector_threshold_zero_counterexample :
    allZero [[0]] ∧ ((⟨1, Real.pi, 0⟩ : HoughConfig)).threshold = 0 ∧
      houghDetect [[0]] ⟨1, Real.pi, 0⟩ ≠ none := by
  refine ⟨by decide, rfl, ?_⟩
  have hth : 1 ≤ numThetaBins ((⟨1, Real.pi, 0⟩ : HoughConfig)).thetaStep :=
    le_of_eq numThetaBins_pi.symm
  have h0 := maxVotes_allZero (show allZero [[0]] by decide)
    (⟨1, Real.pi, 0⟩ : HoughConfig)
  intro habs
  have hlt := (houghDetect_none_iff hth).mp habs
  rw [h0] at hlt
  exact absurd hlt (by decide)

/-- C4 (amended): for every resolution and configuration with a positive
threshold, the Line Detector returns "no line found" on every all-zero grid —
in particular on the grid rasterized from the empty slice. -/
theorem detector_allZero_no_line (w h : ℕ) (cfg : HoughConfig)
    (hth : 1 ≤ cfg.threshold) :
    buildImage w h [] = .ok (gridOf w h []) ∧ allZero (gridOf w h []) ∧
      ∀ g : Grid, allZero g → houghDetect g cfg = none := by
  refine ⟨buildImage_ok (by intro e he; cases he), allZero_gridOf_nil w h, ?_⟩
  intro g hz
  unfold houghDetect
  cases hb : bestBin g cfg with
  | none => rfl
  | some b =>
    show (if (votes g cfg b.1 b.2 : ℤ) < cfg.threshold then none
      else some (rhoOfBin g cfg b.2, thetaOfBin cfg b.1)) = none
    rw [votes_allZero hz cfg b.1 b.2, if_pos (by omega)]

/-- Witness for the amended C4 at resolution `3 × 3`, threshold `10`. -/
theorem detector_allZero_no_line_witness :
    1 ≤ ((⟨1, 1, 10⟩ : HoughConfig)).threshold ∧
      (buildImage 3 3 [] = .ok (gridOf 3 3 []) ∧ allZero (gridOf 3 3 []) ∧
        ∀ g : Grid, allZero g → houghDetect g ⟨1, 1, 10⟩ = none) :=
  ⟨by decide, detector_allZero_no_line 3 3 _ (by decide)⟩

/-- C5: with at least one θ bin, the Line Detector reports "no line found"
exactly when the maximum vote count is strictly below the threshold; a
maximum of `threshold - 1` yields "no line", and a best bin with exactly
`threshold` votes is returned as the detected line. -/
theorem hough_threshold_boundary (g : Grid) (cfg : HoughConfig)
    (hth : 1 ≤ numThetaBins cfg.thetaStep) :
    (houghDetect g cfg = none ↔ (maxVotes g cfg : ℤ) < cfg.threshold) ∧
      ((maxVotes g cfg : ℤ) = cfg.threshold - 1 → houghDetect g cfg = none) ∧
      ∀ b, bestBin g cfg = some b →
        (votes g cfg b.1 b.2 : ℤ) = cfg.threshold →
        houghDetect g cfg = some (rhoOfBin g cfg b.2, thetaOfBin cfg b.1) := by
  refine ⟨houghDetect_none_iff hth, ?_, ?_⟩
  · intro hm
    rw [houghDetect_none_iff hth, hm]
    omega
  · intro b hb hv
    unfold houghDetect
    rw [hb]
    show (if (votes g cfg b.1 b.2 : ℤ) < cfg.threshold then none
      else some (rhoOfBin g cfg b.2, thetaOfBin cfg b.1)) =
        some (rhoOfBin g cfg b.2, thetaOfBin cfg b.1)
    rw [if_neg (by omega)]

/-- Witness for C5 on the all-zero `1 × 1` grid with `theta_step = π`. -/
theorem hough_threshold_boundary_witness :
    1 ≤ numThetaBins ((⟨1, Real.pi, 10⟩ : HoughConfig)).thetaStep ∧
      ((houghDetect [[0]] ⟨1, Real.pi, 10⟩ = none ↔
          (maxVotes [[0]] ⟨1, Real.pi, 10⟩ : ℤ) <
            ((⟨1, Real.pi, 10⟩ : HoughConfig)).threshold) ∧
        ((maxVotes [[0]] ⟨1, Real.pi, 10⟩ : ℤ) =
            ((⟨1, Real.pi, 10⟩ : HoughConfig)).threshold - 1 →
          houghDetect [[0]] ⟨1, Real.pi, 10⟩ = none) ∧
        ∀ b, bestBin [[0]] ⟨1, Real.pi, 10⟩ = some b →
          (votes [[0]] ⟨1, Real.pi, 10⟩ b.1 b.2 : ℤ) =
            ((⟨1, Real.pi, 10⟩ : HoughConfig)).threshold →
          houghDetect [[0]] ⟨1, Real.pi, 10⟩ =
            some (rhoOfBin [[0]] ⟨1, Real.pi, 10⟩ b.2,
              thetaOfBin ⟨1, Real.pi, 10⟩ b.1)) :=
  ⟨le_of_eq numThetaBins_pi.symm,
    hough_threshold_boundary [[0]] _ (le_of_eq numThetaBins_pi.symm)⟩

/-- C6: the Angle Extractor maps a detected line `(ρ, θ)` to the angle
`θ · 180 / π` in degrees together with the line, and the "no line" value to
the pair of "undefined" markers; it is a total function with no other
behaviour, and `detect_line_angle` applies exactly it to the detector's
output. -/
theorem angle_extractor_total :
    (∀ rho theta : ℝ, extractAngle (some (rho, theta)) =
        (some (theta * (180 / Real.pi)), some (rho, theta))) ∧
      extractAngle none = (none, none) ∧
      (∀ lines : Option (ℝ × ℝ), extractAngle lines =
        (lines.map fun p => p.2 * (180 / Real.pi), lines)) ∧
      ∀ (res : ℕ × ℕ) (events : List Event) (cfg : HoughConfig),
        detectLineAngle res events cfg =
          (buildImage res.1 res.2 events).map fun g =>
            extractAngle (houghDetect g cfg) := by
  refine ⟨fun rho theta => rfl, rfl, ?_, fun res events cfg => rfl⟩
  intro lines
  cases lines with
  | none => rfl
  | some p =>
    obtain ⟨rho, theta⟩ := p
    rfl

/-- C7: the Event Slicer fails with the invalid-argument error for every
non-positive `events_per_slice`, producing no slices. -/
theorem slicer_rejects_nonpositive (events : List Event) (k : ℤ) (hk : k ≤ 0) :
    sliceEveryEvents events k = .error "events_per_slice must be positive" := by
  unfold sliceEveryEvents
  rw [if_pos hk]

/-- Witness for C7 at `k = 0`. -/
theorem slicer_rejects_nonpositive_witness :
    (0 : ℤ) ≤ 0 ∧
      sliceEveryEvents sampleEvents 0 =
        .error "events_per_slice must be positive" :=
  ⟨by decide, slicer_rejects_nonpositive sampleEvents 0 (by decide)⟩

/-- C8: for in-bounds events, rasterizing a slice yields the same grid as
rasterizing the slice with duplicate coincident events removed. -/
theorem rasterizer_dedup_idempotent (w h : ℕ) (events : List Event)
    (hin : ∀ e ∈ events, inBounds w h e) :
    buildImage w h events = buildImage w h events.dedup := by
  have hv : ∀ e ∈ events, wrapValid w h e := fun e he => inBounds_wrapValid (hin e he)
  have hv' : ∀ e ∈ events.dedup, wrapValid w h e := fun e he =>
    hv e (List.mem_dedup.mp he)
  rw [buildImage_ok hv, buildImage_ok hv']
  congr 1
  apply grid_ext (shapeOf_gridOf w h events) (shapeOf_gridOf w h events.dedup)
  intro ry hry rx hrx
  rw [getCell_gridOf w h events hry hrx, getCell_gridOf w h events.dedup hry hrx]
  have hb : events.dedup.any (hits w h ry rx) = events.any (hits w h ry rx) := by
    rw [Bool.eq_iff_iff, List.any_eq_true, List.any_eq_true]
    constructor
    · rintro ⟨e, he, hp⟩
      exact ⟨e, List.mem_dedup.mp he, hp⟩
    · rintro ⟨e, he, hp⟩
      exact ⟨e, List.mem_dedup.mpr he, hp⟩
  rw [hb]

/-- Witness for C8 on a slice with a duplicated event. -/
theorem rasterizer_dedup_idempotent_witness :
    (∀ e ∈ [((1 : ℤ), (1 : ℤ)), ((1 : ℤ), (1 : ℤ))], inBounds 2 2 e) ∧
      buildImage 2 2 [((1 : ℤ), (1 : ℤ)), ((1 : ℤ), (1 : ℤ))] =
        buildImage 2 2 ([((1 : ℤ), (1 : ℤ)), ((1 : ℤ), (1 : ℤ))].dedup) :=
  ⟨by decide, rasterizer_dedup_idempotent 2 2 _ (by decide)⟩

/-- C9: whenever the orchestrator loop completes, the resulting angle series
has exactly one entry per slice, keyed by the 0-based slice index in slice
order. -/
theorem orchestrator_series_indexed (res : ℕ × ℕ) (cfg : HoughConfig)
    (slices : List (List Event)) (series : List (ℕ × Option ℝ))
    (hok : detectWheelPosition res cfg slices = .ok series) :
    series.length = slices.length ∧
      series.map Prod.fst = List.range slices.length := by
  have hok' : processSlices res cfg 0 slices = .ok series := hok
  have h1 := processSlices_map_fst res cfg slices 0 series hok'
  have h2 : series.map Prod.fst = List.range slices.length := by
    rw [h1, List.range_eq_range']
  refine ⟨?_, h2⟩
  have h3 := congrArg List.length h2
  simpa using h3

/-- Witness for C9 on the empty slice list. -/
theorem orchestrator_series_indexed_witness :
    detectWheelPosition (1, 1) ⟨1, 1, 10⟩ [] = .ok [] ∧
      (([] : List (ℕ × Option ℝ)).length = ([] : List (List Event)).length ∧
        ([] : List (ℕ × Option ℝ)).map Prod.fst =
          List.range ([] : List (List Event)).length) :=
  ⟨rfl, orchestrator_series_indexed (1, 1) ⟨1, 1, 10⟩ [] [] rfl⟩

/-- C10: an event with a negative coordinate that is no smaller than the
negated resolution does not make rasterization fail; it activates the
wrapped-around cell `(y mod h, x mod w)`, which for a negative coordinate is
`x + w` (resp. `y + h`), a pixel on the opposite side of the image. -/
theorem rasterizer_negative_wrap (w h : ℕ) (x y : ℤ)
    (hx1 : -(w : ℤ) ≤ x) (hx2 : x < (w : ℤ))
    (hy1 : -(h : ℤ) ≤ y) (hy2 : y < (h : ℤ))
    (_hneg : x < 0 ∨ y < 0) :
    ∃ grid, buildImage w h [(x, y)] = .ok grid ∧
      getCell grid (y % (h : ℤ)).toNat (x % (w : ℤ)).toNat = 255 ∧
      (x < 0 → x % (w : ℤ) = x + w) ∧
      (y < 0 → y % (h : ℤ) = y + h) := by
  have hv : ∀ e ∈ [(x, y)], wrapValid w h e := by
    intro e he
    rw [List.mem_singleton] at he
    subst he
    exact ⟨hx1, hx2, hy1, hy2⟩
  refine ⟨gridOf w h [(x, y)], buildImage_ok hv, ?_, ?_, ?_⟩
  · rw [getCell_gridOf w h _ (wrap_row_lt hy1 hy2) (wrap_row_lt hx1 hx2)]
    rw [if_pos (List.any_eq_true.mpr
      ⟨(x, y), List.mem_singleton_self _, by simp [hits]⟩)]
  · intro hxneg
    have h1 : (x + (w : ℤ) * 1) % (w : ℤ) = x % (w : ℤ) := Int.add_mul_emod_self_left x (w : ℤ) 1
    have h2 : x + (w : ℤ) * 1 = x + (w : ℤ) := by ring
    rw [h2] at h1
    rw [← h1, Int.emod_eq_of_lt (by omega) (by omega)]
  · intro hyneg
    have h1 : (y + (h : ℤ) * 1) % (h : ℤ) = y % (h : ℤ) := Int.add_mul_emod_self_left y (h : ℤ) 1
    have h2 : y + (h : ℤ) * 1 = y + (h : ℤ) := by ring
    rw [h2] at h1
    rw [← h1, Int.emod_eq_of_lt (by omega) (by omega)]

/-- Witness for C10 at `(x, y) = (-1, -1)` in a `2 × 2` resolution. -/
theorem rasterizer_negative_wrap_witness :
    (-(2 : ℤ) ≤ -1 ∧ (-1 : ℤ) < 2 ∧ -(2 : ℤ) ≤ -1 ∧ (-1 : ℤ) < 2 ∧
        ((-1 : ℤ) < 0 ∨ (-1 : ℤ) < 0)) ∧
      ∃ grid, buildImage 2 2 [((-1 : ℤ), (-1 : ℤ))] = .ok grid ∧
        getCell grid ((-1 : ℤ) % (2 : ℤ)).toNat ((-1 : ℤ) % (2 : ℤ)).toNat = 255 ∧
        ((-1 : ℤ) < 0 → (-1 : ℤ) % (2 : ℤ) = -1 + 2) ∧
        ((-1 : ℤ) < 0 → (-1 : ℤ) % (2 : ℤ) = -1 + 2) :=
  ⟨by decide, rasterizer_negative_wrap 2 2 (-1) (-1)
    (by decide) (by decide) (by decide) (by decide) (by decide)⟩

end DVS
